import Mathlib

/-!
Verification development for the tiny-multihash repository.

The codec core (src/multihash.rs) and the dispatch surface generated by the
derive macros (proc-macro/src/multihash.rs, derive/src/multihash.rs) are
embedded shallowly: bytes are natural numbers below 256, streams are lists of
bytes, fallible operations return `Except`.  The catalog validator of the
derive crate is embedded over a syntactic view of the annotated enum.
-/

namespace TinyMultihash

/-- Modelled from the spec: unsigned LEB128 varint encoding.  The
`unsigned_varint` crate is an external dependency (not part of this
repository); spec section 4.3 defines the format: 7 payload bits per byte,
high bit set means more bytes follow, least-significant group first.
Structural recursion on a fuel argument; fuel `n` always suffices for
encoding `n`. -/
def varintEncodeAux : Nat → Nat → List Nat
  | 0, n => [n % 128]
  | fuel + 1, n =>
    if n < 128 then [n] else (n % 128 + 128) :: varintEncodeAux fuel (n / 128)

/-- Modelled from the spec: encode a natural number as an unsigned varint. -/
def varintEncode (n : Nat) : List Nat := varintEncodeAux n n

/-- Modelled from the spec: decode an unsigned varint from the front of a
byte stream, returning the value and the unconsumed rest; `none` models the
io/decode failure of `unsigned_varint::io::read_u64`. -/
def varintDecode : List Nat → Option (Nat × List Nat)
  | [] => none
  | b :: rest =>
    if b < 128 then some (b, rest)
    else
      match varintDecode rest with
      | some (n, rest2) => some (b % 128 + 128 * n, rest2)
      | none => none

/-- Errors of the codec, mirroring the variants of `Error` used by
src/multihash.rs and the generated code: `UnsupportedCode` and `InvalidSize`
carry the offending value; `StreamFail` stands for the opaque io::Error case
(propagated stream failures, short reads, varint decode failures). -/
inductive Error where
  | UnsupportedCode : Nat → Error
  | InvalidSize : Nat → Error
  | StreamFail : Error
  deriving DecidableEq

/-- One registered variant of the multihash enum (the per-variant data the
derive macros read from src/code.rs): the multicodec code, the statically
declared digest byte length (the typenum parameter of the digest type), and
the hasher capability.  Hashers are external collaborators (out of scope per
the spec): any function whose output length is the declared size, the law
`hash_len` being what the Rust types guarantee (`Hasher::digest` returns a
fixed-size digest). -/
structure Entry where
  code : Nat
  size : Nat
  hash : List Nat → List Nat
  hash_len : ∀ input, (hash input).length = size

/-- A multihash value over a registry `tbl`: the tagged union generated by the
derive macro.  `idx` selects the variant (an entry of the registry), `digest`
holds the digest bytes, and `hlen` is the static guarantee of the Rust digest
types (a `GenericArray<u8, S>` has exactly `S` bytes). -/
structure Multihash (tbl : List Entry) where
  idx : Fin tbl.length
  digest : List Nat
  hlen : digest.length = (tbl.get idx).size

/-- Generated `MultihashDigest::code`: each variant returns its declared
code literal. -/
def Multihash.code {tbl : List Entry} (v : Multihash tbl) : Nat :=
  (tbl.get v.idx).code

/-- Generated `MultihashDigest::size`: each variant returns its hasher's
statically declared digest length. -/
def Multihash.size {tbl : List Entry} (v : Multihash tbl) : Nat :=
  (tbl.get v.idx).size

/-- Resolution of a code against the registry: the generated `match code`
over the declared code literals, in catalog order, first match wins.  Returns
the index of the matching variant. -/
def findCode : (tbl : List Entry) → Nat → Option (Fin tbl.length)
  | [], _ => none
  | e :: rest, c =>
    if e.code = c then some ⟨0, Nat.succ_pos rest.length⟩
    else (findCode rest c).map fun i => ⟨i.val + 1, Nat.succ_lt_succ i.isLt⟩

/-- Embedding of `read_digest` (src/multihash.rs): read a size varint,
compare with the statically declared length `e.size` (failing with
`InvalidSize` on mismatch), then read exactly `e.size` bytes (a short read is
a stream failure, mirroring `read_exact`).  The digest is returned together
with its static length fact, as the Rust `D: Digest<S>` return type carries
the length in the type. -/
def read_digest (e : Entry) (bytes : List Nat) :
    Except Error ({ d : List Nat // d.length = e.size } × List Nat) :=
  match varintDecode bytes with
  | none => .error .StreamFail
  | some (size, rest) =>
    if size ≠ e.size then .error (.InvalidSize size)
    else if hlt : rest.length < e.size then .error .StreamFail
    else .ok (⟨rest.take e.size, by rw [List.length_take]; omega⟩,
              rest.drop e.size)

/-- Embedding of the generated `MultihashDigest::read`
(proc-macro/src/multihash.rs): read a code varint via `read_code`, dispatch
on the declared code literals (unknown code fails with `UnsupportedCode`),
then delegate to `read_digest` for the matched variant.  The unconsumed rest
of the stream is returned alongside the value. -/
def read (tbl : List Entry) (bytes : List Nat) :
    Except Error (Multihash tbl × List Nat) :=
  match varintDecode bytes with
  | none => .error .StreamFail
  | some (c, r1) =>
    match findCode tbl c with
    | none => .error (.UnsupportedCode c)
    | some i =>
      match read_digest (tbl.get i) r1 with
      | .error err => .error err
      | .ok (d, r2) => .ok (⟨i, d.val, d.property⟩, r2)

/-- Embedding of `write_mh` (src/multihash.rs) over an abstract sink: a sink
is a state `σ` with a `writeAll` operation that may fail with an error `ε`
(`std::io::Write::write_all`).  The code varint, the size varint and the raw
digest bytes are written in that order, each failure propagating via `?`. -/
def write_mh {σ ε : Type} (writeAll : σ → List Nat → Except ε σ) (w : σ)
    {tbl : List Entry} (mh : Multihash tbl) : Except ε σ :=
  match writeAll w (varintEncode (Multihash.code mh)) with
  | .error e => .error e
  | .ok w1 =>
    match writeAll w1 (varintEncode (Multihash.size mh)) with
    | .error e => .error e
    | .ok w2 => writeAll w2 mh.digest

/-- The `Vec<u8>` sink: writing to an in-memory growable buffer appends and
never fails. -/
def vecWriteAll (buf : List Nat) (bytes : List Nat) : Except Error (List Nat) :=
  .ok (buf ++ bytes)

/-- Embedding of `MultihashDigest::to_bytes`: write into a fresh vector; the
`.expect(..)` branch of the source is modelled by the (unreachable) error arm
returning an empty buffer. -/
def to_bytes {tbl : List Entry} (mh : Multihash tbl) : List Nat :=
  match write_mh vecWriteAll [] mh with
  | .ok bs => bs
  | .error _ => []

/-- Embedding of `MultihashDigest::from_bytes`: read from an in-memory slice,
dropping whatever the reader leaves unconsumed. -/
def from_bytes (tbl : List Entry) (bytes : List Nat) :
    Except Error (Multihash tbl) :=
  (read tbl bytes).map Prod.fst

/-- Embedding of the generated `MultihashCreate::new`
(proc-macro/src/multihash.rs): dispatch on the code literals; a declared code
invokes the variant's hasher on the input and wraps the digest, an unknown
code fails with `UnsupportedCode`. -/
def Multihash.new (tbl : List Entry) (c : Nat) (input : List Nat) :
    Except Error (Multihash tbl) :=
  match findCode tbl c with
  | none => .error (.UnsupportedCode c)
  | some i => .ok ⟨i, (tbl.get i).hash input, (tbl.get i).hash_len input⟩

/-- Embedding of the generated `TryFrom<u64> for Code`
(derive/src/multihash.rs): resolve a code to its variant, failing with
`UnsupportedCode` when no declared code matches. -/
def tryFromU64 (tbl : List Entry) (c : Nat) : Except Error (Fin tbl.length) :=
  match findCode tbl c with
  | none => .error (.UnsupportedCode c)
  | some i => .ok i

/-- Embedding of the generated `From<Digest> for Multihash` /
`multihash_from_digest`: wrap an externally produced digest of the variant's
digest type (hence of its declared length) without re-hashing. -/
def fromDigest (tbl : List Entry) (i : Fin tbl.length) (d : List Nat)
    (h : d.length = (tbl.get i).size) : Multihash tbl :=
  ⟨i, d, h⟩

/-- Helper to build concrete registry entries: the hasher capability is kept
opaque (the concrete hash algorithms are external collaborators), so concrete
tables use a stand-in hasher of the declared output length. -/
def mkEntry (code size : Nat) : Entry :=
  ⟨code, size, fun _ => List.replicate size 0,
   fun _ => List.length_replicate size 0⟩

/-- The custom table of tests/custom_table.rs and the spec's concrete
scenario: `Foo` with code 0x01 and 32-byte digests, `Bar` with code 0x02 and
64-byte digests. -/
def fooBarTbl : List Entry := [mkEntry 1 32, mkEntry 2 64]

/-- The default registry of src/code.rs: the eighteen declared variants with
their codes and digest byte lengths, in declaration order. -/
def defaultTbl : List Entry :=
  [mkEntry 0x00 32, mkEntry 0x11 20, mkEntry 0x12 32, mkEntry 0x13 64,
   mkEntry 0x17 28, mkEntry 0x16 32, mkEntry 0x15 48, mkEntry 0x14 64,
   mkEntry 0x1a 28, mkEntry 0x1b 32, mkEntry 0x1c 48, mkEntry 0x1d 64,
   mkEntry 0xb220 32, mkEntry 0xb240 64, mkEntry 0xb250 16, mkEntry 0xb260 32,
   mkEntry 0xa0 32, mkEntry 0xa1 64]

/-- A concrete multihash value over the custom table: the `Foo` variant with
an all-zero 32-byte digest. -/
def vFoo : Multihash fooBarTbl :=
  ⟨⟨0, by decide⟩, List.replicate 32 0, by decide⟩

/-! Catalog validator of the derive crate (derive/src/multihash.rs), embedded
over a syntactic view of the annotated enum. -/

/-- Syntactic view of one enum variant as the derive macro sees it
(derive/src/multihash.rs, struct `Hash`): the token text of its
`#mh(code = ...)` expression, the integer that expression denotes, and the
typenum identifier that is the last generic argument of its digest type
(`none` when the digest type has no such argument).  The macro itself only
ever compares `codeText`; `codeValue` records the evaluated integer the
spelling denotes. -/
structure VHash where
  codeText : String
  codeValue : Nat
  digestSizeTy : Option String
  deriving DecidableEq

/-- Diagnostics of the derive-time validator: `DuplicateCode j i` names the
offending entry `j` and the previous definition `i` it duplicates;
`MaxSizeExceeded entry bound actual` is the max-size violation report;
`InvalidByteSize` is the single post-loop report for an unparseable digest
size; `MalformedMaxSize` is the abort for an unparseable `max_size` bound. -/
inductive Diag where
  | DuplicateCode : Nat → Nat → Diag
  | MaxSizeExceeded : Nat → Nat → Nat → Diag
  | InvalidByteSize : Diag
  | MalformedMaxSize : Diag
  deriving DecidableEq

/-- Embedding of the loop of `error_code_duplicates`: walk the variants in
order keeping the spellings seen so far with the index that first introduced
them (the `HashSet`, whose `insert` keeps the first occurrence); a spelling
already present is reported as a duplicate of that first occurrence
(`uniq.get` returns the stored entry).  The scan covers the whole catalog;
comparison is of the syntactic spelling, exactly as in the source. -/
def dupScan (seen : List (String × Nat)) (i : Nat) :
    List VHash → List (Nat × Nat)
  | [] => []
  | h :: rest =>
    match seen.find? (fun p => p.fst == h.codeText) with
    | some p => (i, p.snd) :: dupScan seen (i + 1) rest
    | none => dupScan ((h.codeText, i) :: seen) (i + 1) rest

/-- Embedding of `error_code_duplicates`: the reported duplicate pairs, each
naming the offending entry index and the first entry with the same code
spelling. -/
def error_code_duplicates (hashes : List VHash) : List (Nat × Nat) :=
  dupScan [] 0 hashes

/-- Invariant tying the accumulator of `dupScan` to the already-scanned
prefix: `seen` holds exactly the first occurrence index of every code
spelling of the prefix. -/
def SeenInv (pfx : List VHash) (seen : List (String × Nat)) : Prop :=
  ∀ s k, (s, k) ∈ seen ↔
    (∃ hk, pfx[k]? = some hk ∧ hk.codeText = s ∧
      ∀ m hm, m < k → pfx[m]? = some hm → hm.codeText ≠ s)

/-- Value of a decimal digit string, as `str::parse::<u64>` computes it. -/
def digitsVal (cs : List Char) : Nat :=
  cs.foldl (fun acc c => acc * 10 + (c.toNat - 48)) 0

/-- Embedding of `parse_unsigned_typenum`: the identifier must split as `U`
followed by a non-empty digit string that fits in a u64
(`split_at(1)` then `parse::<u64>()`). -/
def parse_unsigned_typenum (s : String) : Option Nat :=
  match s.data with
  | 'U' :: rest =>
    if rest.isEmpty then none
    else if rest.all Char.isDigit && decide (digitsVal rest < 2 ^ 64) then
      some (digitsVal rest)
    else none
  | _ => none

/-- Embedding of the per-entry loop of `error_max_size`: walk the variants in
order; a variant whose digest typenum parses and exceeds the bound is
reported as `MaxSizeExceeded` and the walk continues; the walk stops at the
first variant whose digest size annotation does not parse (the source maps
each variant to a `Result` and `collect`s into `Result<(), ParseError>`,
which short-circuits at the first `Err`), reporting a single
`InvalidByteSize` after the loop. -/
def maxSizeScan (bound : Nat) : Nat → List VHash → List Diag
  | _, [] => []
  | i, h :: rest =>
    match h.digestSizeTy with
    | none => [.InvalidByteSize]
    | some ty =>
      match parse_unsigned_typenum ty with
      | none => [.InvalidByteSize]
      | some d =>
        (if bound < d then [Diag.MaxSizeExceeded i bound d] else []) ++
          maxSizeScan bound (i + 1) rest

/-- Embedding of `error_max_size` together with `parse_max_size_attribute`:
an unparseable `max_size` bound aborts with `MalformedMaxSize`
(`proc_macro_error::abort!`); otherwise the per-entry scan runs and its
reports are emitted. -/
def error_max_size (hashes : List VHash) (maxSizeTy : String) :
    Except Diag (List Diag) :=
  match parse_unsigned_typenum maxSizeTy with
  | none => .error .MalformedMaxSize
  | some bound => .ok (maxSizeScan bound 0 hashes)

/-- Syntactic view of a whole annotated enum: the `max_size` attribute's
typenum identifier, the `no_max_size_errors` flag, and the variants. -/
structure SynCatalog where
  maxSizeTy : String
  noMaxSizeErrors : Bool
  hashes : List VHash
  deriving DecidableEq

/-- Embedding of the validation phase of the derive entry point `multihash`:
the duplicate-code check always runs; the max-size check runs only when
`no_max_size_errors` is not set.  `.error d` models an `abort!` (fatal);
`.ok diags` models completed expansion with the emitted diagnostics, the
derive succeeding exactly when `diags` is empty. -/
def validate (cat : SynCatalog) : Except Diag (List Diag) :=
  let dups := (error_code_duplicates cat.hashes).map
    (fun p => Diag.DuplicateCode p.fst p.snd)
  if cat.noMaxSizeErrors then .ok dups
  else
    match error_max_size cat.hashes cat.maxSizeTy with
    | .error d => .error d
    | .ok diags => .ok (dups ++ diags)

/-- Catalog with two code expressions spelled differently (`0x14` and `20`)
that denote the same integer 20: the syntactic duplicate check does not see
them. -/
def dupValueCat : List VHash :=
  [⟨"0x14", 20, some "U32"⟩, ⟨"20", 20, some "U32"⟩]

/-- Catalog with the same code spelling `0x14` three times. -/
def tripleDupCat : List VHash :=
  [⟨"0x14", 20, some "U32"⟩, ⟨"0x14", 20, some "U32"⟩,
   ⟨"0x14", 20, some "U32"⟩]

/-- The spec scenario: bound `U16`, one variant with 32-byte digests,
enforcement on. -/
def maxSize16Cat : SynCatalog :=
  ⟨"U16", false, [⟨"0x01", 1, some "U32"⟩]⟩

/-- Same catalog with enforcement disabled via `no_max_size_errors`. -/
def maxSize16CatOff : SynCatalog :=
  ⟨"U16", true, [⟨"0x01", 1, some "U32"⟩]⟩

/-- Catalog whose first variant's digest size annotation does not parse while
the second variant exceeds the bound. -/
def shortCircuitCat : SynCatalog :=
  ⟨"U16", false, [⟨"0x01", 1, some "foo"⟩, ⟨"0x02", 2, some "U32"⟩]⟩

/-- Catalog with a malformed `max_size` bound and enforcement disabled. -/
def malformedOffCat : SynCatalog :=
  ⟨"foo", true, []⟩

/-! Helper lemmas: varint round trip, code resolution, value extensionality. -/

theorem varintDecode_encodeAux :
    ∀ (fuel n : Nat) (rest : List Nat), n ≤ fuel ∨ n < 128 →
    varintDecode (varintEncodeAux fuel n ++ rest) = some (n, rest) := by
  intro fuel
  induction fuel with
  | zero =>
    intro n rest h
    have hn : n < 128 := by omega
    simp [varintEncodeAux, varintDecode, Nat.mod_eq_of_lt hn, hn]
  | succ fuel ih =>
    intro n rest h
    by_cases hn : n < 128
    · simp [varintEncodeAux, varintDecode, hn]
    · have hrec : n / 128 ≤ fuel ∨ n / 128 < 128 := by
        left
        have : n / 128 < n := Nat.div_lt_self (by omega) (by omega)
        omega
      have hb : ¬ (n % 128 + 128 < 128) := by omega
      simp only [varintEncodeAux, if_neg hn, List.cons_append, varintDecode,
        if_neg hb, ih (n / 128) rest hrec]
      have : (n % 128 + 128) % 128 = n % 128 := by omega
      rw [this, Nat.mod_add_div n 128]

theorem varintDecode_encode (n : Nat) (rest : List Nat) :
    varintDecode (varintEncode n ++ rest) = some (n, rest) :=
  varintDecode_encodeAux n n rest (Or.inl (Nat.le_refl n))

theorem Multihash.eq_of_parts {tbl : List Entry} {v w : Multihash tbl}
    (h1 : v.idx = w.idx) (h2 : v.digest = w.digest) : v = w := by
  cases v; cases w
  cases h1; cases h2
  rfl

theorem findCode_code :
    ∀ (tbl : List Entry) (c : Nat) (i : Fin tbl.length),
    findCode tbl c = some i → (tbl.get i).code = c := by
  intro tbl
  induction tbl with
  | nil => intro c i; exact absurd i.isLt (by simp)
  | cons e rest ih =>
    intro c i h
    by_cases he : e.code = c
    · simp only [findCode, if_pos he] at h
      cases h
      simpa using he
    · simp only [findCode, if_neg he, Option.map_eq_some'] at h
      obtain ⟨j, hj, hval⟩ := h
      cases hval
      simpa using ih c j hj

theorem findCode_eq_none :
    ∀ (tbl : List Entry) (c : Nat),
    findCode tbl c = none ↔ ∀ e ∈ tbl, e.code ≠ c := by
  intro tbl
  induction tbl with
  | nil => intro c; simp [findCode]
  | cons e rest ih =>
    intro c
    by_cases he : e.code = c
    · simp [findCode, if_pos he, he]
    · simp [findCode, if_neg he, Option.map_eq_none', ih c, he]

theorem findCode_get :
    ∀ (tbl : List Entry), (tbl.map Entry.code).Nodup →
    ∀ i : Fin tbl.length, findCode tbl ((tbl.get i).code) = some i := by
  intro tbl
  induction tbl with
  | nil => intro _ i; exact absurd i.isLt (by simp)
  | cons e rest ih =>
    intro hnd i
    rw [List.map_cons, List.nodup_cons] at hnd
    obtain ⟨hnotin, hnd'⟩ := hnd
    match i with
    | ⟨0, h0⟩ => simp [findCode]
    | ⟨j + 1, hj⟩ =>
      have hjlt : j < rest.length := Nat.lt_of_succ_lt_succ hj
      have hget : ((e :: rest).get ⟨j + 1, hj⟩) = rest.get ⟨j, hjlt⟩ := rfl
      rw [hget]
      have hmem : (rest.get ⟨j, hjlt⟩).code ∈ rest.map Entry.code :=
        List.mem_map_of_mem Entry.code (rest.get_mem j hjlt)
      have hne : e.code ≠ (rest.get ⟨j, hjlt⟩).code := fun h => hnotin (h ▸ hmem)
      simp only [findCode, if_neg hne, ih hnd' ⟨j, hjlt⟩, Option.map_some']

theorem to_bytes_eq {tbl : List Entry} (v : Multihash tbl) :
    to_bytes v =
      varintEncode (Multihash.code v) ++
        (varintEncode (Multihash.size v) ++ v.digest) := by
  simp [to_bytes, write_mh, vecWriteAll]

theorem read_digest_exact (e : Entry) (d extra : List Nat)
    (hd : d.length = e.size) :
    read_digest e (varintEncode e.size ++ (d ++ extra)) =
      .ok (⟨d, hd⟩, extra) := by
  unfold read_digest
  rw [varintDecode_encode]
  have hlt : ¬ (d.length + extra.length < e.size) := by omega
  simp [hlt, List.take_left' hd, List.drop_left' hd]

theorem read_toBytes_append {tbl : List Entry}
    (hnd : (tbl.map Entry.code).Nodup) (v : Multihash tbl) (extra : List Nat) :
    read tbl (to_bytes v ++ extra) = .ok (v, extra) := by
  obtain ⟨i, d, hd⟩ := v
  rw [to_bytes_eq, List.append_assoc, List.append_assoc]
  simp only [read, Multihash.code, Multihash.size, varintDecode_encode,
    findCode_get tbl hnd i, read_digest_exact (tbl.get i) d extra hd]

/-- Claim C1: for every constructible multihash value `v` over a registry
whose codes are pairwise distinct (the registry invariant of the spec's data
model), decoding the bytes produced by encoding yields `v` back: both the
stream reader and `from_bytes` return exactly `v`, same code and identical
digest bytes, with the whole stream consumed. -/
theorem claim_c1_roundtrip {tbl : List Entry}
    (hnd : (tbl.map Entry.code).Nodup) (v : Multihash tbl) :
    read tbl (to_bytes v) = .ok (v, []) ∧
      from_bytes tbl (to_bytes v) = .ok v := by
  have h := read_toBytes_append hnd v []
  rw [List.append_nil] at h
  refine ⟨h, ?_⟩
  rw [from_bytes, h]
  rfl

/-- Witness for claim C1 at the concrete custom table and the `Foo` value. -/
theorem claim_c1_roundtrip_witness :
    read fooBarTbl (to_bytes vFoo) = .ok (vFoo, []) ∧
      from_bytes fooBarTbl (to_bytes vFoo) = .ok vFoo :=
  claim_c1_roundtrip (by decide) vFoo

/-- Claim C9: a valid encoding followed by arbitrary trailing bytes still
decodes successfully to the same value, the trailing bytes being left
unconsumed by the reader and silently dropped by `from_bytes`, never
reported as an error. -/
theorem claim_c9_trailing {tbl : List Entry}
    (hnd : (tbl.map Entry.code).Nodup) (v : Multihash tbl)
    (extra : List Nat) :
    read tbl (to_bytes v ++ extra) = .ok (v, extra) ∧
      from_bytes tbl (to_bytes v ++ extra) = .ok v := by
  have h := read_toBytes_append hnd v extra
  refine ⟨h, ?_⟩
  rw [from_bytes, h]
  rfl

/-- Witness for claim C9 with two trailing junk bytes. -/
theorem claim_c9_trailing_witness :
    read fooBarTbl (to_bytes vFoo ++ [7, 42]) = .ok (vFoo, [7, 42]) ∧
      from_bytes fooBarTbl (to_bytes vFoo ++ [7, 42]) = .ok vFoo :=
  claim_c9_trailing (by decide) vFoo [7, 42]

/-- Claim C10: `to_bytes` is total: writing to the in-memory growable buffer
never fails (the write succeeds, so the `.expect` branch of the source is
unreachable), and the returned bytes are exactly what `write` emits. -/
theorem claim_c10_to_bytes_total {tbl : List Entry} (v : Multihash tbl) :
    write_mh vecWriteAll [] v = .ok (to_bytes v) ∧
      to_bytes v =
        varintEncode (Multihash.code v) ++
          (varintEncode (Multihash.size v) ++ v.digest) := by
  refine ⟨?_, to_bytes_eq v⟩
  simp [to_bytes, write_mh, vecWriteAll]

/-- Claim C2: `write` emits exactly the code varint, then the varint of the
statically declared size, then the raw digest bytes, in that order and
nothing else (first conjunct: the in-memory sink receives exactly that byte
sequence); and any failure of the sink is propagated unchanged (second
conjunct: an error result of `write_mh` is literally the error returned by
the first failing `writeAll` call). -/
theorem claim_c2_write_layout {tbl : List Entry} (v : Multihash tbl) :
    (write_mh vecWriteAll [] v =
      .ok (varintEncode (Multihash.code v) ++
        (varintEncode (Multihash.size v) ++ v.digest))) ∧
    (∀ (σ ε : Type) (writeAll : σ → List Nat → Except ε σ) (w : σ) (e : ε),
      write_mh writeAll w v = .error e →
        writeAll w (varintEncode (Multihash.code v)) = .error e ∨
        ∃ w1, writeAll w (varintEncode (Multihash.code v)) = .ok w1 ∧
          (writeAll w1 (varintEncode (Multihash.size v)) = .error e ∨
           ∃ w2, writeAll w1 (varintEncode (Multihash.size v)) = .ok w2 ∧
             writeAll w2 v.digest = .error e)) := by
  constructor
  · simp [write_mh, vecWriteAll]
  · intro σ ε writeAll w e hw
    unfold write_mh at hw
    cases h1 : writeAll w (varintEncode (Multihash.code v)) with
    | error e1 =>
      rw [h1] at hw
      dsimp only at hw
      cases hw
      exact Or.inl rfl
    | ok w1 =>
      rw [h1] at hw
      dsimp only at hw
      cases h2 : writeAll w1 (varintEncode (Multihash.size v)) with
      | error e2 =>
        rw [h2] at hw
        dsimp only at hw
        cases hw
        exact Or.inr ⟨w1, rfl, Or.inl h2⟩
      | ok w2 =>
        rw [h2] at hw
        dsimp only at hw
        exact Or.inr ⟨w1, rfl, Or.inr ⟨w2, h2, hw⟩⟩

/-- Witness for claim C2: the concrete layout on the `Foo` value, and the
propagation conjunct applied to a sink that always fails. -/
theorem claim_c2_write_layout_witness :
    (write_mh vecWriteAll [] vFoo =
      .ok (varintEncode (Multihash.code vFoo) ++
        (varintEncode (Multihash.size vFoo) ++ vFoo.digest))) ∧
    ((fun (_ : Unit) (_ : List Nat) => (.error Error.StreamFail : Except Error Unit)) ()
        (varintEncode (Multihash.code vFoo)) = .error Error.StreamFail ∨
      ∃ w1, (fun (_ : Unit) (_ : List Nat) => (.error Error.StreamFail : Except Error Unit)) ()
          (varintEncode (Multihash.code vFoo)) = .ok w1 ∧
        ((fun (_ : Unit) (_ : List Nat) => (.error Error.StreamFail : Except Error Unit)) w1
            (varintEncode (Multihash.size vFoo)) = .error Error.StreamFail ∨
         ∃ w2, (fun (_ : Unit) (_ : List Nat) => (.error Error.StreamFail : Except Error Unit)) w1
             (varintEncode (Multihash.size vFoo)) = .ok w2 ∧
           (fun (_ : Unit) (_ : List Nat) => (.error Error.StreamFail : Except Error Unit)) w2
             vFoo.digest = .error Error.StreamFail)) :=
  ⟨(claim_c2_write_layout vFoo).1,
   (claim_c2_write_layout vFoo).2 Unit Error
     (fun _ _ => .error Error.StreamFail) () Error.StreamFail rfl⟩

theorem read_digest_no_unsupported (e : Entry) (bytes : List Nat) (x : Nat) :
    read_digest e bytes ≠ .error (.UnsupportedCode x) := by
  unfold read_digest
  split
  · simp
  · split
    · simp
    · split
      · simp
      · simp

/-- Claim C3: a code absent from the registry makes `new` (construct), the
generated `TryFrom<u64>` and `read` (on a stream whose leading varint decodes
to that code) fail with `UnsupportedCode` carrying that code; a declared code
never produces an `UnsupportedCode` error from any of them. -/
theorem claim_c3_unsupported_code {tbl : List Entry} (c : Nat) :
    ((∀ e ∈ tbl, e.code ≠ c) →
      (∀ input, Multihash.new tbl c input = .error (.UnsupportedCode c)) ∧
      tryFromU64 tbl c = .error (.UnsupportedCode c) ∧
      (∀ s rest, varintDecode s = some (c, rest) →
        read tbl s = .error (.UnsupportedCode c))) ∧
    ((∃ e ∈ tbl, e.code = c) →
      (∀ input x, Multihash.new tbl c input ≠ .error (.UnsupportedCode x)) ∧
      (∀ x, tryFromU64 tbl c ≠ .error (.UnsupportedCode x)) ∧
      (∀ s rest x, varintDecode s = some (c, rest) →
        read tbl s ≠ .error (.UnsupportedCode x))) := by
  constructor
  · intro habs
    have hnone : findCode tbl c = none := (findCode_eq_none tbl c).mpr habs
    refine ⟨?_, ?_, ?_⟩
    · intro input
      unfold Multihash.new
      rw [hnone]
    · unfold tryFromU64
      rw [hnone]
    · intro s rest hs
      unfold read
      rw [hs]
      dsimp only
      rw [hnone]
  · intro hdecl
    obtain ⟨i, hfc⟩ : ∃ i, findCode tbl c = some i := by
      cases hx : findCode tbl c with
      | none =>
        obtain ⟨e, hmem, hcode⟩ := hdecl
        exact absurd hcode ((findCode_eq_none tbl c).mp hx e hmem)
      | some i => exact ⟨i, rfl⟩
    refine ⟨?_, ?_, ?_⟩
    · intro input x
      unfold Multihash.new
      rw [hfc]
      simp
    · intro x
      unfold tryFromU64
      rw [hfc]
      simp
    · intro s rest x hs
      unfold read
      rw [hs]
      dsimp only
      rw [hfc]
      dsimp only
      cases hrd : read_digest (tbl.get i) rest with
      | error err =>
        dsimp only
        intro hcontra
        cases hcontra
        exact read_digest_no_unsupported (tbl.get i) rest x hrd
      | ok p =>
        dsimp only
        simp

/-- Witness for claim C3: code 5 is not declared in the custom table (both
construct and read reject it with UnsupportedCode 5); code 1 is declared and
neither operation yields UnsupportedCode for it. -/
theorem claim_c3_unsupported_code_witness :
    (Multihash.new fooBarTbl 5 [1, 2] = .error (.UnsupportedCode 5) ∧
     tryFromU64 fooBarTbl 5 = .error (.UnsupportedCode 5) ∧
     read fooBarTbl [5, 9] = .error (.UnsupportedCode 5)) ∧
    (Multihash.new fooBarTbl 1 [1, 2] ≠ .error (.UnsupportedCode 1) ∧
     tryFromU64 fooBarTbl 1 ≠ .error (.UnsupportedCode 1) ∧
     read fooBarTbl [1] ≠ .error (.UnsupportedCode 9)) := by
  have habs := (@claim_c3_unsupported_code fooBarTbl 5).1 (by decide)
  have hdecl := (@claim_c3_unsupported_code fooBarTbl 1).2
    (by refine ⟨mkEntry 1 32, by simp [fooBarTbl], by simp [mkEntry]⟩)
  exact ⟨⟨habs.1 [1, 2], habs.2.1, habs.2.2 [5, 9] [9] rfl⟩,
         ⟨hdecl.1 [1, 2] 1, hdecl.2.1 1, hdecl.2.2 [1] [] 9 rfl⟩⟩

/-- Claim C4: on a stream whose leading varint resolves to a declared code,
a size varint `d` different from the statically declared length fails with
`InvalidSize d` (no truncation or zero-padding), while `d` equal to the
declared length makes `read` consume exactly `d` further bytes as the digest,
a short stream being a stream failure. -/
theorem claim_c4_invalid_size {tbl : List Entry} {s s1 : List Nat} {c : Nat}
    {i : Fin tbl.length} {d : Nat} {s2 : List Nat}
    (hs : varintDecode s = some (c, s1))
    (hc : findCode tbl c = some i)
    (hd : varintDecode s1 = some (d, s2)) :
    (d ≠ (tbl.get i).size → read tbl s = .error (.InvalidSize d)) ∧
    (d = (tbl.get i).size →
      (s2.length < d → read tbl s = .error .StreamFail) ∧
      (d ≤ s2.length →
        ∃ v rest, read tbl s = .ok (v, rest) ∧ v.idx = i ∧
          v.digest = s2.take d ∧ rest = s2.drop d)) := by
  unfold read
  rw [hs]
  dsimp only
  rw [hc]
  dsimp only
  unfold read_digest
  rw [hd]
  dsimp only
  constructor
  · intro hne
    rw [if_pos hne]
  · intro heq
    rw [if_neg (by simp [heq])]
    constructor
    · intro hshort
      rw [dif_pos (by omega)]
    · intro hlong
      rw [dif_neg (by omega)]
      subst heq
      exact ⟨_, _, rfl, rfl, rfl, rfl⟩

/-- Witness for claim C4 on the custom table, code 1 (declared size 32): a
declared size of 31 is rejected with InvalidSize 31, a declared size of 32
with no digest bytes is a stream failure, and a declared size of 32 followed
by 32 bytes decodes to exactly those 32 bytes with nothing left over. -/
theorem claim_c4_invalid_size_witness :
    read fooBarTbl [1, 31] = .error (.InvalidSize 31) ∧
    read fooBarTbl [1, 32] = .error .StreamFail ∧
    (∃ v rest, read fooBarTbl ([1, 32] ++ List.replicate 32 7) = .ok (v, rest) ∧
      v.idx = (⟨0, by decide⟩ : Fin fooBarTbl.length) ∧
      v.digest = (List.replicate 32 7 : List Nat).take 32 ∧
      rest = (List.replicate 32 7 : List Nat).drop 32) := by
  refine ⟨?_, ?_, ?_⟩
  · exact (@claim_c4_invalid_size fooBarTbl [1, 31] [31] 1 ⟨0, by decide⟩ 31 []
      rfl rfl rfl).1 (by decide)
  · exact ((@claim_c4_invalid_size fooBarTbl [1, 32] [32] 1 ⟨0, by decide⟩ 32 []
      rfl rfl rfl).2 (by decide)).1 (by decide)
  · exact ((@claim_c4_invalid_size fooBarTbl ([1, 32] ++ List.replicate 32 7)
      (32 :: List.replicate 32 7) 1 ⟨0, by decide⟩ 32 (List.replicate 32 7)
      (by decide) rfl rfl).2 (by decide)).2 (by decide)

/-- Claim C5: every multihash value, however constructed, has
`size v` equal to the statically declared digest length of its variant and
equal to the actual byte length of its digest; in particular values built by
construct (`new`), by decoding (`read`) and by wrapping an existing digest
(`fromDigest`) all satisfy it. -/
theorem claim_c5_size_invariant {tbl : List Entry} :
    (∀ v : Multihash tbl,
      Multihash.size v = (tbl.get v.idx).size ∧
      Multihash.size v = v.digest.length) ∧
    (∀ c input v, Multihash.new tbl c input = .ok v →
      v.digest.length = Multihash.size v) ∧
    (∀ bytes v rest, read tbl bytes = .ok (v, rest) →
      v.digest.length = Multihash.size v) ∧
    (∀ (i : Fin tbl.length) (d : List Nat) (h : d.length = (tbl.get i).size),
      Multihash.size (fromDigest tbl i d h) = d.length) := by
  refine ⟨fun v => ⟨rfl, v.hlen.symm⟩, fun c input v _ => v.hlen,
    fun bytes v rest _ => v.hlen, fun i d h => h.symm⟩

/-- Witness for claim C5 at the `Foo` value, also obtained from construct. -/
theorem claim_c5_size_invariant_witness :
    (Multihash.size vFoo = (fooBarTbl.get vFoo.idx).size ∧
     Multihash.size vFoo = vFoo.digest.length) ∧
    vFoo.digest.length = Multihash.size vFoo :=
  ⟨(@claim_c5_size_invariant fooBarTbl).1 vFoo,
   (@claim_c5_size_invariant fooBarTbl).2.1 1 [3] vFoo rfl⟩

theorem exists_first_occ :
    ∀ (l : List VHash) (s : String) (m : Nat) (hm : VHash),
    l[m]? = some hm → hm.codeText = s →
    ∃ (k : Nat) (hk : VHash), l[k]? = some hk ∧ hk.codeText = s ∧
      ∀ (n : Nat) (hn : VHash), n < k → l[n]? = some hn →
        hn.codeText ≠ s := by
  intro l
  induction l with
  | nil =>
    intro s m hm hget
    simp at hget
  | cons a t ih =>
    intro s m hm hget hsyn
    by_cases ha : a.codeText = s
    · exact ⟨0, a, List.getElem?_cons_zero, ha,
        fun n hn hlt => absurd hlt (Nat.not_lt_zero n)⟩
    · match m with
      | 0 =>
        have : hm = a := by simpa using hget.symm
        exact absurd (this ▸ hsyn) ha
      | m' + 1 =>
        have hget' : t[m']? = some hm := by simpa using hget
        obtain ⟨k, hk, hkget, hksyn, hkmin⟩ := ih s m' hm hget' hsyn
        refine ⟨k + 1, hk, by rw [List.getElem?_cons_succ]; exact hkget,
          hksyn, ?_⟩
        intro n hn hlt hget2
        match n with
        | 0 =>
          have : hn = a := by simpa using hget2.symm
          exact this ▸ ha
        | n' + 1 =>
          exact hkmin n' hn (by omega) (by simpa using hget2)

theorem seenInv_nil : SeenInv [] [] := by
  intro s k
  simp

theorem dupScan_cons_found (seen : List (String × Nat)) (i : Nat) (h : VHash)
    (rest : List VHash) (p : String × Nat)
    (hfind : seen.find? (fun q => q.fst == h.codeText) = some p) :
    dupScan seen i (h :: rest) = (i, p.snd) :: dupScan seen (i + 1) rest := by
  have hstep : dupScan seen i (h :: rest) =
      match seen.find? (fun q => q.fst == h.codeText) with
      | some q => (i, q.snd) :: dupScan seen (i + 1) rest
      | none => dupScan ((h.codeText, i) :: seen) (i + 1) rest := rfl
  rw [hstep, hfind]

theorem dupScan_cons_new (seen : List (String × Nat)) (i : Nat) (h : VHash)
    (rest : List VHash)
    (hfind : seen.find? (fun q => q.fst == h.codeText) = none) :
    dupScan seen i (h :: rest) =
      dupScan ((h.codeText, i) :: seen) (i + 1) rest := by
  have hstep : dupScan seen i (h :: rest) =
      match seen.find? (fun q => q.fst == h.codeText) with
      | some q => (i, q.snd) :: dupScan seen (i + 1) rest
      | none => dupScan ((h.codeText, i) :: seen) (i + 1) rest := rfl
  rw [hstep, hfind]

theorem dupScan_mem_iff :
    ∀ (rest pfx : List VHash) (seen : List (String × Nat)),
    SeenInv pfx seen →
    ∀ (j i : Nat), (j, i) ∈ dupScan seen pfx.length rest ↔
      (∃ (hj : VHash), (pfx ++ rest)[j]? = some hj ∧ pfx.length ≤ j ∧
        i < j ∧
        (∃ (hi : VHash), (pfx ++ rest)[i]? = some hi ∧
          hi.codeText = hj.codeText) ∧
        ∀ (k : Nat) (hk : VHash), k < i → (pfx ++ rest)[k]? = some hk →
          hk.codeText ≠ hj.codeText) := by
  intro rest
  induction rest with
  | nil =>
    intro pfx seen hinv j i
    simp only [dupScan, List.not_mem_nil, false_iff, List.append_nil]
    rintro ⟨hj, hget, hle, -⟩
    have hlt := (List.getElem?_eq_some.mp hget).1
    omega
  | cons h rest ih =>
    intro pfx seen hinv j i
    have hlist : pfx ++ h :: rest = (pfx ++ [h]) ++ rest := by simp
    have hself : (pfx ++ h :: rest)[pfx.length]? = some h := by
      rw [List.getElem?_append_right (Nat.le_refl pfx.length)]
      simp
    cases hfind : seen.find? (fun q => q.fst == h.codeText) with
    | some p =>
      have hps : p.fst = h.codeText := by
        have := List.find?_some hfind
        simpa using this
      have hpmem : p ∈ seen := List.mem_of_find?_eq_some hfind
      obtain ⟨hk0, hk0get, hk0syn, hk0min⟩ := (hinv p.fst p.snd).mp hpmem
      have hk0lt : p.snd < pfx.length := (List.getElem?_eq_some.mp hk0get).1
      have hinv' : SeenInv (pfx ++ [h]) seen := by
        intro s k
        rw [hinv s k]
        constructor
        · rintro ⟨hk, hget, hsyn, hmin⟩
          have hklt : k < pfx.length := (List.getElem?_eq_some.mp hget).1
          refine ⟨hk, ?_, hsyn, ?_⟩
          · rw [List.getElem?_append_left hklt]; exact hget
          · intro m hm hmlt hmget
            rw [List.getElem?_append_left (by omega : m < pfx.length)]
              at hmget
            exact hmin m hm hmlt hmget
        · rintro ⟨hk, hget, hsyn, hmin⟩
          have hklt1 : k < pfx.length + 1 := by
            have := (List.getElem?_eq_some.mp hget).1
            simpa using this
          by_cases hkeq : k = pfx.length
          · exfalso
            subst hkeq
            rw [List.getElem?_append_right (Nat.le_refl pfx.length)] at hget
            simp at hget
            exact hmin p.snd hk0 (by omega)
              (by rw [List.getElem?_append_left hk0lt]; exact hk0get)
              (by rw [hk0syn, hps, ← hsyn, hget])
          · have hklt : k < pfx.length := by omega
            rw [List.getElem?_append_left hklt] at hget
            refine ⟨hk, hget, hsyn, ?_⟩
            intro m hm hmlt hmget
            refine hmin m hm hmlt ?_
            rw [List.getElem?_append_left (by omega : m < pfx.length)]
            exact hmget
      rw [dupScan_cons_found seen pfx.length h rest p hfind, List.mem_cons]
      have hrec := ih (pfx ++ [h]) seen hinv' j i
      simp only [List.length_append, List.length_singleton] at hrec
      constructor
      · intro hm
        rcases hm with heq | hmem2
        · injection heq with hj_eq hi_eq
          subst hj_eq
          subst hi_eq
          refine ⟨h, hself, Nat.le_refl _, by omega, ⟨hk0, ?_, ?_⟩, ?_⟩
          · rw [List.getElem?_append_left hk0lt]; exact hk0get
          · rw [hk0syn, hps]
          · intro k hk hklt hkget
            rw [List.getElem?_append_left (by omega : k < pfx.length)]
              at hkget
            have := hk0min k hk hklt hkget
            rw [hps] at this
            exact this
        · obtain ⟨hj, hget, hle, hlt, ⟨hi, higet, hisyn⟩, hmin⟩ :=
            hrec.mp hmem2
          rw [← hlist] at hget higet
          refine ⟨hj, hget, by omega, hlt, ⟨hi, higet, hisyn⟩, ?_⟩
          intro k hk hklt hkget
          rw [hlist] at hkget
          exact hmin k hk hklt hkget
      · rintro ⟨hj, hget, hle, hlt, ⟨hi, higet, hisyn⟩, hmin⟩
        by_cases hjeq : j = pfx.length
        · left
          subst hjeq
          have hj_h : hj = h := (Option.some.inj (hself.symm.trans hget)).symm
          subst hj_h
          have hilt : i < pfx.length := by omega
          rw [List.getElem?_append_left hilt] at higet
          have hminp : ∀ (m : Nat) (hm : VHash), m < i → pfx[m]? = some hm →
              hm.codeText ≠ hj.codeText := by
            intro m hm hmlt hmget
            refine hmin m hm hmlt ?_
            rw [List.getElem?_append_left (by omega : m < pfx.length)]
            exact hmget
          have hieq : i = p.snd := by
            rcases Nat.lt_trichotomy i p.snd with h1 | h2 | h3
            · exfalso
              have := hk0min i hi h1 higet
              rw [hps] at this
              exact this hisyn
            · exact h2
            · exfalso
              exact hminp p.snd hk0 h3 hk0get (by rw [hk0syn, hps])
          subst hieq
          rfl
        · right
          refine hrec.mpr ⟨hj, ?_, by omega, hlt, ⟨hi, ?_, hisyn⟩, ?_⟩
          · rw [← hlist]; exact hget
          · rw [← hlist]; exact higet
          · intro k hk hklt hkget
            rw [← hlist] at hkget
            exact hmin k hk hklt hkget
    | none =>
      have hnone : ∀ q ∈ seen, q.fst ≠ h.codeText := by
        intro q hq
        have := List.find?_eq_none.mp hfind q hq
        simpa using this
      have hnoocc : ∀ (m : Nat) (hm : VHash), pfx[m]? = some hm →
          hm.codeText ≠ h.codeText := by
        intro m hm hmget hmsyn
        obtain ⟨k, hk, hkget, hksyn, hkmin⟩ :=
          exists_first_occ pfx h.codeText m hm hmget hmsyn
        exact hnone (h.codeText, k)
          ((hinv h.codeText k).mpr ⟨hk, hkget, hksyn, hkmin⟩) rfl
      have hinv' : SeenInv (pfx ++ [h]) ((h.codeText, pfx.length) :: seen) := by
        intro s k
        constructor
        · intro hmem
          rcases List.mem_cons.mp hmem with heq | hmem2
          · injection heq with hs hk2
            subst hs
            subst hk2
            refine ⟨h, ?_, rfl, ?_⟩
            · rw [List.getElem?_append_right (Nat.le_refl pfx.length)]
              simp
            · intro m hm hmlt hmget
              rw [List.getElem?_append_left (by omega : m < pfx.length)]
                at hmget
              exact hnoocc m hm hmget
          · obtain ⟨hk, hget, hsyn, hmin⟩ := (hinv s k).mp hmem2
            have hklt : k < pfx.length := (List.getElem?_eq_some.mp hget).1
            refine ⟨hk, ?_, hsyn, ?_⟩
            · rw [List.getElem?_append_left hklt]; exact hget
            · intro m hm hmlt hmget
              rw [List.getElem?_append_left (by omega : m < pfx.length)]
                at hmget
              exact hmin m hm hmlt hmget
        · rintro ⟨hk, hget, hsyn, hmin⟩
          have hklt1 : k < pfx.length + 1 := by
            have := (List.getElem?_eq_some.mp hget).1
            simpa using this
          by_cases hkeq : k = pfx.length
          · subst hkeq
            rw [List.getElem?_append_right (Nat.le_refl pfx.length)] at hget
            simp at hget
            have hs : s = h.codeText := by rw [← hsyn, hget]
            rw [hs]
            exact List.mem_cons_self _ _
          · have hklt : k < pfx.length := by omega
            rw [List.getElem?_append_left hklt] at hget
            refine List.mem_cons_of_mem _
              ((hinv s k).mpr ⟨hk, hget, hsyn, ?_⟩)
            intro m hm hmlt hmget
            refine hmin m hm hmlt ?_
            rw [List.getElem?_append_left (by omega : m < pfx.length)]
            exact hmget
      rw [dupScan_cons_new seen pfx.length h rest hfind]
      have hrec := ih (pfx ++ [h]) ((h.codeText, pfx.length) :: seen)
        hinv' j i
      simp only [List.length_append, List.length_singleton] at hrec
      rw [hrec]
      constructor
      · rintro ⟨hj, hget, hle, hlt, ⟨hi, higet, hisyn⟩, hmin⟩
        rw [← hlist] at hget higet
        refine ⟨hj, hget, by omega, hlt, ⟨hi, higet, hisyn⟩, ?_⟩
        intro k hk hklt hkget
        rw [hlist] at hkget
        exact hmin k hk hklt hkget
      · rintro ⟨hj, hget, hle, hlt, ⟨hi, higet, hisyn⟩, hmin⟩
        by_cases hjeq : j = pfx.length
        · exfalso
          subst hjeq
          have hj_h : hj = h := (Option.some.inj (hself.symm.trans hget)).symm
          have hilt : i < pfx.length := by omega
          rw [List.getElem?_append_left hilt] at higet
          exact hnoocc i hi higet (by rw [hisyn, hj_h])
        · refine ⟨hj, ?_, by omega, hlt, ⟨hi, ?_, hisyn⟩, ?_⟩
          · rw [← hlist]; exact hget
          · rw [← hlist]; exact higet
          · intro k hk hklt hkget
            rw [← hlist] at hkget
            exact hmin k hk hklt hkget

/-- Claim C6 (amended): the duplicate-code check compares the syntactic
spelling of the code expressions, not their integer values; it runs over the
full catalog in one pass and reports, for every entry whose spelling already
occurred, a `DuplicateCode` naming that entry and the first entry with the
same spelling — this characterizes the reported pairs exactly. -/
theorem claim_c6_duplicate_reports (hashes : List VHash) (j i : Nat) :
    (j, i) ∈ error_code_duplicates hashes ↔
      ∃ (hj : VHash), hashes[j]? = some hj ∧ i < j ∧
        (∃ (hi : VHash), hashes[i]? = some hi ∧
          hi.codeText = hj.codeText) ∧
        ∀ (k : Nat) (hk : VHash), k < i → hashes[k]? = some hk →
          hk.codeText ≠ hj.codeText := by
  have h := dupScan_mem_iff hashes [] [] seenInv_nil j i
  simp only [List.nil_append, List.length_nil, Nat.zero_le, true_and] at h
  exact h

/-- Witness for claim C6: in a catalog repeating the spelling `0x14` three
times, both later occurrences are reported against the first. -/
theorem claim_c6_duplicate_reports_witness :
    (1, 0) ∈ error_code_duplicates tripleDupCat ∧
      (2, 0) ∈ error_code_duplicates tripleDupCat :=
  ⟨(claim_c6_duplicate_reports tripleDupCat 1 0).mpr
    ⟨⟨"0x14", 20, some "U32"⟩, by decide, by omega,
     ⟨⟨"0x14", 20, some "U32"⟩, by decide, rfl⟩,
     fun k hk hlt => absurd hlt (Nat.not_lt_zero k)⟩,
   (claim_c6_duplicate_reports tripleDupCat 2 0).mpr
    ⟨⟨"0x14", 20, some "U32"⟩, by decide, by omega,
     ⟨⟨"0x14", 20, some "U32"⟩, by decide, rfl⟩,
     fun k hk hlt => absurd hlt (Nat.not_lt_zero k)⟩⟩

/-- Counterexample to claim C6 as stated: two entries whose code expressions
denote the same integer 20 but are spelled differently (`0x14` and `20`) are
not reported at all, so the check is not by integer value. -/
theorem claim_c6_counterexample :
    dupValueCat.map VHash.codeValue = [20, 20] ∧
    error_code_duplicates dupValueCat = [] := by
  constructor
  · rfl
  · rfl

theorem maxSizeScan_mem (bound : Nat) :
    ∀ (hashes : List VHash) (i0 j : Nat) (hj : VHash) (ty : String) (d : Nat),
    hashes[j]? = some hj → hj.digestSizeTy = some ty →
    parse_unsigned_typenum ty = some d → bound < d →
    (∀ (k : Nat) (hk : VHash), k < j → hashes[k]? = some hk →
      ∃ (tyk : String) (dk : Nat), hk.digestSizeTy = some tyk ∧
        parse_unsigned_typenum tyk = some dk) →
    Diag.MaxSizeExceeded (i0 + j) bound d ∈ maxSizeScan bound i0 hashes := by
  intro hashes
  induction hashes with
  | nil =>
    intro i0 j hj ty d hget
    simp at hget
  | cons h rest ih =>
    intro i0 j hj ty d hget hty hparse hbd hpre
    have hstep : ∀ (tt : String) (dd : Nat), h.digestSizeTy = some tt →
        parse_unsigned_typenum tt = some dd →
        maxSizeScan bound i0 (h :: rest) =
          (if bound < dd then [Diag.MaxSizeExceeded i0 bound dd] else []) ++
            maxSizeScan bound (i0 + 1) rest := by
      intro tt dd h1 h2
      have hdef : maxSizeScan bound i0 (h :: rest) =
          match h.digestSizeTy with
          | none => [Diag.InvalidByteSize]
          | some ty2 =>
            match parse_unsigned_typenum ty2 with
            | none => [Diag.InvalidByteSize]
            | some d2 =>
              (if bound < d2 then [Diag.MaxSizeExceeded i0 bound d2]
                else []) ++ maxSizeScan bound (i0 + 1) rest := rfl
      rw [hdef, h1]
      dsimp only
      rw [h2]
    match j with
    | 0 =>
      have hjh : h = hj :=
        Option.some.inj (List.getElem?_cons_zero.symm.trans hget)
      subst hjh
      rw [hstep ty d hty hparse, if_pos hbd, Nat.add_zero]
      exact List.mem_append_left _ (by simp)
    | j' + 1 =>
      obtain ⟨ty0, d0, hty0, hparse0⟩ :=
        hpre 0 h (by omega) List.getElem?_cons_zero
      rw [hstep ty0 d0 hty0 hparse0]
      refine List.mem_append_right _ ?_
      have harith : i0 + (j' + 1) = (i0 + 1) + j' := by omega
      rw [harith]
      refine ih (i0 + 1) j' hj ty d ?_ hty hparse hbd ?_
      · rw [← List.getElem?_cons_succ]
        exact hget
      · intro k hk hklt hkget
        refine hpre (k + 1) hk (by omega) ?_
        rw [List.getElem?_cons_succ]
        exact hkget

/-- Claim C7 (amended): with enforcement enabled and a parseable bound, the
max-size check reports `MaxSizeExceeded` for every entry whose digest size
annotation parses and exceeds the bound, provided the annotations of all
earlier entries parse (the per-entry scan stops at the first unparseable
annotation), and construction fails; the spec's concrete scenario holds:
bound `U16` with a 32-byte digest fails with `MaxSizeExceeded` when
enforcement is on and constructs successfully when it is off. -/
theorem claim_c7_max_size (cat : SynCatalog) (bound : Nat)
    (hbound : parse_unsigned_typenum cat.maxSizeTy = some bound)
    (hon : cat.noMaxSizeErrors = false) :
    (∀ (j : Nat) (hj : VHash) (ty : String) (d : Nat),
      cat.hashes[j]? = some hj → hj.digestSizeTy = some ty →
      parse_unsigned_typenum ty = some d → bound < d →
      (∀ (k : Nat) (hk : VHash), k < j → cat.hashes[k]? = some hk →
        ∃ (tyk : String) (dk : Nat), hk.digestSizeTy = some tyk ∧
          parse_unsigned_typenum tyk = some dk) →
      ∃ diags, validate cat = .ok diags ∧
        Diag.MaxSizeExceeded j bound d ∈ diags ∧ diags ≠ []) ∧
    validate maxSize16Cat = .ok [Diag.MaxSizeExceeded 0 16 32] ∧
    validate maxSize16CatOff = .ok [] := by
  refine ⟨?_, rfl, rfl⟩
  intro j hj ty d hget hty hparse hbd hpre
  have hmem :=
    maxSizeScan_mem bound cat.hashes 0 j hj ty d hget hty hparse hbd hpre
  rw [Nat.zero_add] at hmem
  have hmem2 := List.mem_append_right
    ((error_code_duplicates cat.hashes).map
      (fun p => Diag.DuplicateCode p.fst p.snd)) hmem
  refine ⟨_, ?_, hmem2, List.ne_nil_of_mem hmem2⟩
  unfold validate error_max_size
  rw [hon, hbound]
  simp

/-- Witness for claim C7 at the spec scenario: the single entry of
`maxSize16Cat` (digest typenum `U32`, bound `U16`) is reported. -/
theorem claim_c7_max_size_witness :
    (∃ diags, validate maxSize16Cat = .ok diags ∧
      Diag.MaxSizeExceeded 0 16 32 ∈ diags ∧ diags ≠ []) ∧
    validate maxSize16Cat = .ok [Diag.MaxSizeExceeded 0 16 32] ∧
    validate maxSize16CatOff = .ok [] := by
  have h := claim_c7_max_size maxSize16Cat 16 rfl rfl
  exact ⟨h.1 0 ⟨"0x01", 1, some "U32"⟩ "U32" 32 (by decide) rfl rfl
    (by omega) (fun k hk hklt => absurd hklt (Nat.not_lt_zero k)),
    h.2.1, h.2.2⟩

/-- Counterexample to claim C7 as stated: in `shortCircuitCat` the entry at
index 1 has digest byte length 32, which exceeds the bound 16, yet validation
reports only `InvalidByteSize` (the scan short-circuited at entry 0, whose
annotation does not parse) and no `MaxSizeExceeded` for any entry. -/
theorem claim_c7_counterexample :
    validate shortCircuitCat = .ok [Diag.InvalidByteSize] ∧
    shortCircuitCat.hashes[1]? = some ⟨"0x02", 2, some "U32"⟩ ∧
    parse_unsigned_typenum "U32" = some 32 ∧
    parse_unsigned_typenum shortCircuitCat.maxSizeTy = some 16 ∧
    16 < 32 ∧
    (∀ (e b a : Nat), Diag.MaxSizeExceeded e b a ∉ [Diag.InvalidByteSize]) := by
  refine ⟨rfl, by decide, rfl, rfl, by omega, ?_⟩
  intro e b a hmem
  simp at hmem

/-- Claim C8 (amended): for a catalog with max-size enforcement enabled whose
`max_size` bound does not parse as an unsigned typenum, the derive aborts
with the fatal `MalformedMaxSize` diagnostic. -/
theorem claim_c8_malformed_bound (cat : SynCatalog)
    (hon : cat.noMaxSizeErrors = false)
    (hbad : parse_unsigned_typenum cat.maxSizeTy = none) :
    validate cat = .error .MalformedMaxSize := by
  unfold validate error_max_size
  rw [hon, hbad]
  simp

/-- Witness for claim C8: the bound `foo` with enforcement on aborts. -/
theorem claim_c8_malformed_bound_witness :
    validate ⟨"foo", false, []⟩ = .error .MalformedMaxSize :=
  claim_c8_malformed_bound ⟨"foo", false, []⟩ rfl rfl

/-- Counterexample to claim C8 as stated: a catalog whose `max_size` bound
does not parse but which sets `no_max_size_errors` constructs successfully —
the bound is never parsed, so no `MalformedMaxSize` is produced. -/
theorem claim_c8_counterexample :
    parse_unsigned_typenum malformedOffCat.maxSizeTy = none ∧
    validate malformedOffCat = .ok [] := ⟨rfl, rfl⟩

end TinyMultihash
